import Mathlib

/-!
Verification of the two PixelMilk maintenance scripts:
`scripts/lyria-batches.py` (playlist batch reporter) and
`scripts/sync-audio.py` (audio list synchronizer).

The Python code is embedded shallowly: the JSON track store becomes a list of
(identifier, record) pairs, Python dicts with insertion order become
association lists, `sorted` with a key function becomes a stable insertion
sort, and the regex substitution of `re.sub` becomes an explicit
deterministic matcher over lists of characters (the pattern involved has no
ambiguity, see the comments at `matchAt`).
-/

namespace PixelMilk

/-! ## Batch reporter: data model (`lyria-batches.py`)

A track record: `info.get('playlist', 'Uncategorized')`,
`info.get('audioPrompt', 'No prompt')`, `info.get('bpm', '?')`,
`info.get('energy', '?')` read four optional fields. -/

structure Info where
  playlist : Option String
  audioPrompt : Option String
  bpm : Option String
  energy : Option String
deriving DecidableEq

/-- A loaded (identifier, record) pair, in the iteration order of `data.items()`. -/
abbrev Track := String × Info

/-- `info.get('playlist', 'Uncategorized')`. -/
def playlistKey (i : Info) : String := i.playlist.getD "Uncategorized"

/-- One step of `playlists.setdefault(pl, []).append((pid, info))` on an
association list that keeps keys in first-insertion order. -/
def addTrack (k : String) (t : Track) :
    List (String × List Track) → List (String × List Track)
  | [] => [(k, [t])]
  | (k0, g) :: rest =>
      if k0 = k then (k0, g ++ [t]) :: rest else (k0, g) :: addTrack k t rest

/-- The `playlists` dict: group the records by playlist key, iterating the
source mapping left to right. -/
def playlists (data : List Track) : List (String × List Track) :=
  data.foldl (fun acc t => addTrack (playlistKey t.2) t acc) []

/-- Dict lookup on an association list (the empty list when the key is
absent). -/
def lookupG (l : List (String × List Track)) (k : String) : List Track :=
  ((l.find? (fun e => e.1 == k)).map (fun e => e.2)).getD []

/-- `playlists` built from a starting accumulator (generalisation of
`playlists` used to reason about the fold). -/
def buildG (acc : List (String × List Track)) (data : List Track) :
    List (String × List Track) :=
  data.foldl (fun a t => addTrack (playlistKey t.2) t a) acc

/-- `playlists[name]` (the empty list when the key is absent; the scripts only
use this after a membership test). -/
def groupTracks (data : List Track) (k : String) : List Track :=
  lookupG (playlists data) k

/-- `playlist_name in playlists`. -/
def knownPlaylist (data : List Track) (name : String) : Bool :=
  ((playlists data).find? (fun e => e.1 == name)).isSome

/-- The comparison realised by `sorted(playlists.items(), key=lambda x: -len(x[1]))`:
descending by track count.  `List.insertionSort` with this relation is the
stable descending sort, which is the unique reordering Python's stable
`sorted` produces for this key. -/
abbrev descCount (a b : String × List Track) : Prop := b.2.length ≤ a.2.length

/-- The comparison realised by
`sorted(playlists.keys(), key=lambda x: -len(playlists[x]))`. -/
abbrev descKey (data : List Track) (a b : String) : Prop :=
  (groupTracks data b).length ≤ (groupTracks data a).length

/-- The per-playlist lines printed by `print_playlist_summary`:
display name, `len(tracks)`, and `(len(tracks) + 5) // 6` batches. -/
def summaryEntries (data : List Track) : List (String × Nat × Nat) :=
  (List.insertionSort descCount (playlists data)).map
    (fun e => (e.1, e.2.length, (e.2.length + 5) / 6))

/-- The sequence of playlist names `print_playlist_summary` prints. -/
def summaryOrder (data : List Track) : List String :=
  (summaryEntries data).map (fun e => e.1)

/-- The sequence of playlist names `print_all_batches` passes to `print_batch`. -/
def reportAllOrder (data : List Track) : List String :=
  List.insertionSort (descKey data) ((playlists data).map (fun e => e.1))

/-- The loop `for i in range(0, len(tracks), 6): batch = tracks[i:i+6]` with
`batch_num = i // 6 + 1`: since `i` ranges over multiples of 6, the slice at
`i = 6 * (k - 1)` is `take 6` of the remaining list, and the batch number is
`k`.  The `fuel` argument only bounds the recursion; `tracks.length` steps
always suffice because each step drops at least one element. -/
def chunkGo : Nat → Nat → List Track → List (Nat × List Track)
  | 0, _, _ => []
  | _ + 1, _, [] => []
  | fuel + 1, k, t :: ts => (k, (t :: ts).take 6) :: chunkGo fuel (k + 1) ((t :: ts).drop 6)

/-- The chunk loop started at batch number `k` (wrapper fixing the fuel). -/
def chunks (k : Nat) (l : List Track) : List (Nat × List Track) :=
  chunkGo l.length k l

/-- The numbered batches `print_batch` prints for a playlist's track list. -/
def reportBatches (tracks : List Track) : List (Nat × List Track) :=
  chunks 1 tracks

/-- Abstract console output of the batch reporter. -/
inductive RLine where
  | notFound (name : String)
  | summary (entries : List (String × Nat × Nat))
  | header (name : String)
  | batchHeader (num : Nat) (count : Nat)
deriving DecidableEq

/-- Output of `print_playlist_summary()`. -/
def summarizeOut (data : List Track) : List RLine := [.summary (summaryEntries data)]

/-- Output of `print_batch(name)`: on an unknown name the not-found message
followed by exactly the summary output; otherwise the header and the batches. -/
def printBatchOut (data : List Track) (name : String) : List RLine :=
  if knownPlaylist data name then
    .header name ::
      (reportBatches (groupTracks data name)).map (fun b => .batchHeader b.1 b.2.length)
  else
    .notFound name :: summarizeOut data

/-! ## Audio-list synchronizer (`sync-audio.py`)

File names and file contents are lists of characters.  The script builds
`audio_files = sorted([f.stem for f in audio_dir.glob("*.wav")])`, renders

    const AVAILABLE_AUDIO = new Set([
      '<name>',
      ...
    ]);

and runs `re.sub` with the pattern
`const AVAILABLE_AUDIO = new Set\(\[\n(?:  '[^']+',\n)*\]\);` over the target
file, writing the file back only when the result differs. -/

/-- The apostrophe character used by the generated block. -/
def qc : Char := Char.ofNat 39

/-- The literal opening marker of the block (the part of the pattern before
the name lines), `const AVAILABLE_AUDIO = new Set([` plus the newline. -/
def openMark : List Char := "const AVAILABLE_AUDIO = new Set([\n".data

/-- The literal closing marker `]);`. -/
def closeMark : List Char := "]);".data

/-- One generated line `  '<name>',\n` of the block. -/
def nameLine (f : List Char) : List Char :=
  ' ' :: ' ' :: qc :: (f ++ qc :: ',' :: '\n' :: [])

/-- `set_content`: the block rendered for a given name list. -/
def setContent (files : List (List Char)) : List Char :=
  openMark ++ (files.map nameLine).flatten ++ closeMark

/-- Parse one name line `  '[^']+',\n` at the front of `s`, returning the
rest.  The character class `[^']+` is realised by `takeWhile`: a regex engine
stops the scan at the first apostrophe and no shorter stop can satisfy the
following literal `'`, so the greedy scan is the unique parse. -/
def eatLine (s : List Char) : Option (List Char) :=
  match s with
  | ' ' :: ' ' :: c :: rest =>
      if c = qc then
        if rest.takeWhile (fun x => ¬ (x = qc)) = [] then none
        else
          match rest.dropWhile (fun x => ¬ (x = qc)) with
          | c2 :: ',' :: '\n' :: rest3 => if c2 = qc then some rest3 else none
          | _ => none
      else none
  | _ => none

/-- Greedy repetition `(?:  '[^']+',\n)*`.  The fuel argument only bounds the
recursion; `s.length` always suffices since a line is at least 7 characters.
Backtracking to fewer iterations never helps the surrounding pattern: the
closing marker starts with `]` while a consumed line starts with a space. -/
def eatLinesGo : Nat → List Char → List Char
  | 0, s => s
  | fuel + 1, s =>
      match eatLine s with
      | some t => eatLinesGo fuel t
      | none => s

def eatLines (s : List Char) : List Char := eatLinesGo s.length s

/-- Attempt to match the whole pattern at the front of `s`; on success return
the suffix after the match.  This is exactly what Python's engine computes at
one position (the match, when any, is unique, see `eatLine`/`eatLinesGo`). -/
def matchAt (s : List Char) : Option (List Char) :=
  if openMark.isPrefixOf s then
    if closeMark.isPrefixOf (eatLines (s.drop openMark.length)) then
      some ((eatLines (s.drop openMark.length)).drop closeMark.length)
    else none
  else none

/-- `re.sub(pattern, repl, s)`: scan left to right, replace every
non-overlapping match, resume after each match.  Fuel-bounded recursion;
`s.length` suffices since every step consumes at least one character. -/
def reSubGo (repl : List Char) : Nat → List Char → List Char
  | 0, s => s
  | _ + 1, [] => []
  | fuel + 1, c :: cs =>
      match matchAt (c :: cs) with
      | some rest => repl ++ reSubGo repl fuel rest
      | none => c :: reSubGo repl fuel cs

def reSubAll (repl : List Char) (s : List Char) : List Char := reSubGo repl s.length s

/-- The extension filter of `audio_dir.glob("*.wav")`: `fnmatch` translates
`*.wav` to `.*\.wav`, i.e. names ending in `.wav` (pathlib does not
special-case names that begin with a dot). -/
def wavSuffix : List Char := ".wav".data

def matchesWav (name : List Char) : Bool := wavSuffix.isSuffixOf name

/-- `Path(name).stem` for a name that ends in `.wav`: strip the final 4
characters, except that for the name `.wav` itself the leading dot is not an
extension separator and the stem is the whole name. -/
def stemOf (name : List Char) : List Char :=
  if name = wavSuffix then name else name.take (name.length - 4)

/-- Python's `<=` on strings: lexicographic by code point. -/
def leChars : List Char → List Char → Prop
  | [], _ => True
  | _ :: _, [] => False
  | a :: as, b :: bs => a < b ∨ (a = b ∧ leChars as bs)

instance : DecidableRel leChars := fun a b => by
  induction a generalizing b with
  | nil => exact isTrue trivial
  | cons x xs ih =>
      cases b with
      | nil => exact isFalse id
      | cons y ys => exact @instDecidableOr _ _ _ (@instDecidableAnd _ _ _ (ih ys))

/-- `sorted([f.stem for f in audio_dir.glob("*.wav")])`: the ascending stable
sort of the stems of the matching names (ties are equal strings, so any
stable concern is moot). -/
def collectFiles (listing : List (List Char)) : List (List Char) :=
  List.insertionSort leChars ((listing.filter matchesWav).map stemOf)

/-- Result of one run of the script body: the final content of the target
file and whether the script wrote it (`new_content != content`). -/
structure SyncResult where
  fileContent : List Char
  wrote : Bool
deriving DecidableEq

/-- One run of `sync-audio.py` against a directory listing and the current
target-file content: `new_content = re.sub(pattern, set_content, content)` is
written back exactly when it differs from `content`. -/
def sync (listing : List (List Char)) (content : List Char) : SyncResult :=
  if reSubAll (setContent (collectFiles listing)) content = content then
    ⟨content, false⟩
  else
    ⟨reSubAll (setContent (collectFiles listing)) content, true⟩

/-! ## Lemmas about the playlist grouping -/

theorem lookupG_cons (k0 : String) (g : List Track) (rest : List (String × List Track))
    (k : String) :
    lookupG ((k0, g) :: rest) k = if k0 = k then g else lookupG rest k := by
  by_cases h : k0 = k
  · simp [lookupG, List.find?, h]
  · have hb : (k0 == k) = false := by simpa using h
    simp [lookupG, List.find?, hb, h]

theorem lookupG_addTrack (k' : String) (t : Track) (acc : List (String × List Track))
    (k : String) :
    lookupG (addTrack k' t acc) k =
      if k' = k then lookupG acc k ++ [t] else lookupG acc k := by
  induction acc with
  | nil =>
      by_cases h : k' = k <;> simp [addTrack, lookupG_cons, h, lookupG]
  | cons p rest ih =>
      obtain ⟨k0, g⟩ := p
      by_cases h0 : k0 = k'
      · subst h0
        by_cases hk : k0 = k <;> simp [addTrack, lookupG_cons, hk]
      · by_cases hk : k0 = k
        · subst hk
          have hne : ¬ k' = k0 := fun h => h0 h.symm
          simp [addTrack, h0, lookupG_cons, hne]
        · simp [addTrack, h0, lookupG_cons, hk, ih]

theorem lookupG_buildG (data : List Track) (acc : List (String × List Track)) (k : String) :
    lookupG (buildG acc data) k =
      lookupG acc k ++ data.filter (fun t => playlistKey t.2 == k) := by
  induction data generalizing acc with
  | nil => simp [buildG]
  | cons t rest ih =>
      have hstep : buildG acc (t :: rest) = buildG (addTrack (playlistKey t.2) t acc) rest := rfl
      rw [hstep, ih, lookupG_addTrack]
      by_cases h : playlistKey t.2 = k
      · simp [h]
      · simp [h]

/-- The grouping equation: the group stored under `k` is exactly the records
whose playlist key is `k`, in source order. -/
theorem groupTracks_eq_filter (data : List Track) (k : String) :
    groupTracks data k = data.filter (fun t => playlistKey t.2 == k) := by
  have h := lookupG_buildG data [] k
  simpa [groupTracks, playlists, buildG, lookupG] using h

theorem keys_addTrack (k' : String) (t : Track) (acc : List (String × List Track)) :
    (addTrack k' t acc).map (fun e => e.1) =
      if k' ∈ acc.map (fun e => e.1) then acc.map (fun e => e.1)
      else acc.map (fun e => e.1) ++ [k'] := by
  induction acc with
  | nil => simp [addTrack]
  | cons p rest ih =>
      obtain ⟨k0, g⟩ := p
      by_cases h0 : k0 = k'
      · subst h0
        simp [addTrack]
      · have : ¬ k' = k0 := fun h => h0 h.symm
        by_cases hmem : k' ∈ rest.map (fun e => e.1) <;>
          simp [addTrack, h0, ih, hmem, this]

theorem keys_nodup_buildG (data : List Track) (acc : List (String × List Track))
    (hacc : (acc.map (fun e => e.1)).Nodup) :
    ((buildG acc data).map (fun e => e.1)).Nodup := by
  induction data generalizing acc with
  | nil => simpa [buildG] using hacc
  | cons t rest ih =>
      have hstep : buildG acc (t :: rest) = buildG (addTrack (playlistKey t.2) t acc) rest := rfl
      rw [hstep]
      refine ih _ ?_
      rw [keys_addTrack]
      by_cases hmem : playlistKey t.2 ∈ acc.map (fun e => e.1)
      · simpa [hmem] using hacc
      · simp only [hmem, if_false]
        exact List.Nodup.append hacc (List.nodup_singleton _)
          (by simpa using fun h => hmem h)

/-- The playlist keys are pairwise distinct. -/
theorem playlists_keys_nodup (data : List Track) :
    ((playlists data).map (fun e => e.1)).Nodup :=
  keys_nodup_buildG data [] (by simp)

theorem groups_ne_nil_addTrack (k' : String) (t : Track) (acc : List (String × List Track))
    (hacc : ∀ p ∈ acc, p.2 ≠ []) :
    ∀ p ∈ addTrack k' t acc, p.2 ≠ [] := by
  induction acc with
  | nil =>
      intro p hp
      simp only [addTrack, List.mem_singleton] at hp
      subst hp
      simp
  | cons p0 rest ih =>
      obtain ⟨k0, g⟩ := p0
      intro p hp
      by_cases h0 : k0 = k'
      · rw [addTrack, if_pos h0] at hp
        rcases List.mem_cons.mp hp with h | h
        · subst h; simp
        · exact hacc p (List.mem_cons_of_mem _ h)
      · rw [addTrack, if_neg h0] at hp
        rcases List.mem_cons.mp hp with h | h
        · subst h; exact hacc (k0, g) (List.mem_cons_self _ _)
        · exact ih (fun q hq => hacc q (List.mem_cons_of_mem _ hq)) p h

theorem groups_ne_nil_buildG (data : List Track) (acc : List (String × List Track))
    (hacc : ∀ p ∈ acc, p.2 ≠ []) :
    ∀ p ∈ buildG acc data, p.2 ≠ [] := by
  induction data generalizing acc with
  | nil => simpa [buildG] using hacc
  | cons t rest ih =>
      have hstep : buildG acc (t :: rest) = buildG (addTrack (playlistKey t.2) t acc) rest := rfl
      rw [hstep]
      exact ih _ (groups_ne_nil_addTrack _ _ _ hacc)

/-- Every stored group is non-empty. -/
theorem playlists_groups_ne_nil (data : List Track) :
    ∀ p ∈ playlists data, p.2 ≠ [] :=
  groups_ne_nil_buildG data [] (by simp)

theorem find?_eq_of_mem_of_nodup (l : List (String × List Track)) (k : String)
    (g : List Track) (hnd : (l.map (fun e => e.1)).Nodup) (hmem : (k, g) ∈ l) :
    l.find? (fun e => e.1 == k) = some (k, g) := by
  induction l with
  | nil => cases hmem
  | cons p rest ih =>
      obtain ⟨k0, g0⟩ := p
      rcases List.mem_cons.mp hmem with h | h
      · injection h with h1 h2
        subst h1
        subst h2
        simp [List.find?]
      · have hk0 : k0 ≠ k := by
          intro hk
          subst hk
          have : k0 ∈ rest.map (fun e => e.1) :=
            List.mem_map.mpr ⟨(k0, g), h, rfl⟩
          exact (List.nodup_cons.mp hnd).1 this
        have : ((k0, g0).1 == k) = false := by simpa using hk0
        simp only [List.find?, this]
        exact ih (List.nodup_cons.mp hnd).2 h

/-- Membership in the grouping determines the lookup. -/
theorem groupTracks_of_mem (data : List Track) (k : String) (g : List Track)
    (hmem : (k, g) ∈ playlists data) : groupTracks data k = g := by
  rw [groupTracks, lookupG, find?_eq_of_mem_of_nodup _ _ _ (playlists_keys_nodup data) hmem]
  rfl

/-! ## Lemmas about the chunk loop -/

theorem chunkGo_fuel_eq (fuel : Nat) : ∀ (fuel' k : Nat) (l : List Track),
    l.length ≤ fuel → l.length ≤ fuel' → chunkGo fuel k l = chunkGo fuel' k l := by
  induction fuel with
  | zero =>
      intro fuel' k l h1 _
      have hl : l = [] := List.eq_nil_of_length_eq_zero (Nat.le_zero.mp h1)
      subst hl
      cases fuel' <;> rfl
  | succ n ih =>
      intro fuel' k l h1 h2
      cases l with
      | nil => cases fuel' <;> rfl
      | cons t ts =>
          cases fuel' with
          | zero => simp at h2
          | succ m =>
              simp only [chunkGo]
              congr 1
              have hd : ((t :: ts).drop 6).length = (t :: ts).length - 6 :=
                List.length_drop 6 _
              refine ih _ _ _ ?_ ?_ <;>
                (rw [hd]; simp only [List.length_cons] at h1 h2 ⊢; omega)

theorem chunks_nil (k : Nat) : chunks k [] = [] := rfl

theorem chunks_cons (k : Nat) (t : Track) (ts : List Track) :
    chunks k (t :: ts) = (k, (t :: ts).take 6) :: chunks (k + 1) ((t :: ts).drop 6) := by
  show chunkGo ((t :: ts).length) k (t :: ts) = _
  have hlen : (t :: ts).length = ts.length + 1 := rfl
  rw [hlen]
  simp only [chunkGo]
  congr 1
  apply chunkGo_fuel_eq
  · rw [List.length_drop]; simp only [List.length_cons]; omega
  · exact Nat.le_refl _

theorem chunks_drop_lt (t : Track) (ts : List Track) :
    ((t :: ts).drop 6).length < (t :: ts).length := by
  rw [List.length_drop]; simp; omega

theorem drop6_length_le (t : Track) (ts : List Track) (n : Nat)
    (h : (t :: ts).length ≤ n + 1) : ((t :: ts).drop 6).length ≤ n := by
  rw [List.length_drop]
  simp only [List.length_cons] at h ⊢
  omega

theorem chunks_flatten_aux (n : Nat) : ∀ (l : List Track) (k : Nat), l.length ≤ n →
    ((chunks k l).map (fun p => p.2)).flatten = l := by
  induction n with
  | zero =>
      intro l k h
      have hl : l = [] := List.eq_nil_of_length_eq_zero (Nat.le_zero.mp h)
      subst hl; rfl
  | succ m ih =>
      intro l k h
      rcases l with _ | ⟨t, ts⟩
      · rfl
      · rw [chunks_cons]
        simp only [List.map_cons, List.flatten_cons]
        rw [ih ((t :: ts).drop 6) (k + 1) (drop6_length_le t ts m h)]
        exact List.take_append_drop 6 (t :: ts)

theorem chunks_flatten (l : List Track) (k : Nat) :
    ((chunks k l).map (fun p => p.2)).flatten = l :=
  chunks_flatten_aux l.length l k (Nat.le_refl _)

theorem chunks_size_nonempty_aux (n : Nat) : ∀ (l : List Track) (k : Nat),
    l.length ≤ n → ∀ p ∈ chunks k l, p.2.length ≤ 6 ∧ p.2 ≠ [] := by
  induction n with
  | zero =>
      intro l k h p hp
      have hl : l = [] := List.eq_nil_of_length_eq_zero (Nat.le_zero.mp h)
      subst hl; cases hp
  | succ m ih =>
      intro l k h p hp
      rcases l with _ | ⟨t, ts⟩
      · cases hp
      · rw [chunks_cons] at hp
        rcases List.mem_cons.mp hp with hh | hh
        · subst hh
          refine ⟨by simp, by simp⟩
        · exact ih ((t :: ts).drop 6) (k + 1) (drop6_length_le t ts m h) p hh

theorem chunks_size_nonempty (l : List Track) (k : Nat) (p : Nat × List Track)
    (hp : p ∈ chunks k l) : p.2.length ≤ 6 ∧ p.2 ≠ [] :=
  chunks_size_nonempty_aux l.length l k (Nat.le_refl _) p hp

theorem chunks_numbers_aux (n : Nat) : ∀ (l : List Track) (k : Nat), l.length ≤ n →
    (chunks k l).map (fun p => p.1) = List.range' k (chunks k l).length := by
  induction n with
  | zero =>
      intro l k h
      have hl : l = [] := List.eq_nil_of_length_eq_zero (Nat.le_zero.mp h)
      subst hl; rfl
  | succ m ih =>
      intro l k h
      rcases l with _ | ⟨t, ts⟩
      · rfl
      · rw [chunks_cons]
        simp only [List.map_cons, List.length_cons, List.range'_succ]
        rw [ih ((t :: ts).drop 6) (k + 1) (drop6_length_le t ts m h)]

theorem chunks_numbers (l : List Track) (k : Nat) :
    (chunks k l).map (fun p => p.1) = List.range' k (chunks k l).length :=
  chunks_numbers_aux l.length l k (Nat.le_refl _)

theorem chunks_ne_nil_iff (l : List Track) (k : Nat) : chunks k l ≠ [] ↔ l ≠ [] := by
  cases l with
  | nil => simp [chunks_nil]
  | cons t ts => rw [chunks_cons]; simp

theorem chunks_nonlast_full_aux (n : Nat) : ∀ (l : List Track) (k : Nat),
    l.length ≤ n → ∀ p ∈ (chunks k l).dropLast, p.2.length = 6 := by
  induction n with
  | zero =>
      intro l k h p hp
      have hl : l = [] := List.eq_nil_of_length_eq_zero (Nat.le_zero.mp h)
      subst hl; cases hp
  | succ m ih =>
      intro l k h p hp
      rcases l with _ | ⟨t, ts⟩
      · cases hp
      · rw [chunks_cons] at hp
        rcases hrest : chunks (k + 1) ((t :: ts).drop 6) with _ | ⟨q, qs⟩
        · rw [hrest] at hp; cases hp
        · rw [hrest, List.dropLast_cons₂] at hp
          rcases List.mem_cons.mp hp with hh | hh
          · subst hh
            have hne : (t :: ts).drop 6 ≠ [] := by
              intro hnil
              rw [hnil] at hrest
              exact (List.cons_ne_nil q qs) hrest.symm
            have h6 : 6 < (t :: ts).length := by
              by_contra hle
              exact hne (List.drop_eq_nil_of_le (Nat.le_of_not_lt hle))
            simp only [List.length_take, List.length_cons] at h6 ⊢
            omega
          · rw [← hrest] at hh
            exact ih ((t :: ts).drop 6) (k + 1) (drop6_length_le t ts m h) p hh

theorem chunks_nonlast_full (l : List Track) (k : Nat) (p : Nat × List Track)
    (hp : p ∈ (chunks k l).dropLast) : p.2.length = 6 :=
  chunks_nonlast_full_aux l.length l k (Nat.le_refl _) p hp

theorem flatten_length_sum (L : List (List Track)) :
    L.flatten.length = (L.map (fun g => g.length)).sum := by
  induction L with
  | nil => rfl
  | cons g gs ih => simp [List.flatten_cons, ih]

/-! ## Claim theorems for the batch reporter -/

/-- Claim C6: the playlist grouping is a complete partition of the loaded
records: the group stored under `k` consists exactly of the records whose
playlist key is `k` (so every record is in exactly one group), in source
iteration order; keys are pairwise distinct; and a key is present exactly
when some record carries it. -/
theorem claim_C6_grouping_partition (data : List Track) (k : String) :
    groupTracks data k = data.filter (fun t => playlistKey t.2 == k) ∧
    ((playlists data).map (fun e => e.1)).Nodup ∧
    (k ∈ (playlists data).map (fun e => e.1) ↔
      data.filter (fun t => playlistKey t.2 == k) ≠ []) := by
  refine ⟨groupTracks_eq_filter data k, playlists_keys_nodup data, ?_, ?_⟩
  · intro hk
    obtain ⟨⟨pk, pg⟩, hp, hfst⟩ := List.mem_map.mp hk
    have hpk : k = pk := Eq.symm hfst
    subst hpk
    rw [← groupTracks_eq_filter data k, groupTracks_of_mem data k pg hp]
    exact playlists_groups_ne_nil data (k, pg) hp
  · intro hne
    have hgt : groupTracks data k ≠ [] := by
      rw [groupTracks_eq_filter data k]; exact hne
    rw [groupTracks, lookupG] at hgt
    rcases hfind : (playlists data).find? (fun e => e.1 == k) with _ | e
    · rw [hfind] at hgt; simp at hgt
    · have hpred := List.find?_some hfind
      have hmem := List.mem_of_find?_eq_some hfind
      have hk : e.1 = k := by simpa using hpred
      exact List.mem_map.mpr ⟨e, hmem, hk⟩

/-- Claim C10: every playlist group is non-empty; hence `summarize` reports
for it a track count of at least 1 and a batch count of at least 1, and
`report` on a known name prints at least one batch. -/
theorem claim_C10_groups_nonempty (data : List Track) (k : String) (g : List Track)
    (h : (k, g) ∈ playlists data) :
    0 < g.length ∧
    (k, g.length, (g.length + 5) / 6) ∈ summaryEntries data ∧
    1 ≤ (g.length + 5) / 6 ∧
    reportBatches g ≠ [] := by
  have hne : g ≠ [] := playlists_groups_ne_nil data (k, g) h
  have hpos : 0 < g.length := List.length_pos.mpr hne
  refine ⟨hpos, ?_, by omega, ?_⟩
  · have hmem : (k, g) ∈ List.insertionSort descCount (playlists data) :=
      (List.mem_insertionSort descCount).mpr h
    exact List.mem_map.mpr ⟨(k, g), hmem, rfl⟩
  · rw [reportBatches]
    exact (chunks_ne_nil_iff g 1).mpr hne

/-- Claim C1: every batch count printed by `summarize` is
`(track_count + 5) / 6`, which is the ceiling of `track_count / 6`
(characterised by `n ≤ 6 b < n + 6`). -/
theorem claim_C1_summary_ceiling (data : List Track) (pl : String) (n b : Nat)
    (h : (pl, n, b) ∈ summaryEntries data) :
    b = (n + 5) / 6 ∧ n ≤ 6 * b ∧ 6 * b < n + 6 := by
  rcases List.mem_map.mp h with ⟨e, _, hfe⟩
  injection hfe with h1 h23
  injection h23 with h2 h3
  subst h2
  subst h3
  refine ⟨rfl, ?_, ?_⟩ <;> omega

/-- Witness for C10 at a concrete one-track store. -/
theorem claim_C10_groups_nonempty_witness :
    0 < [(("t1" : String), Info.mk (some "A") none none none)].length ∧
    ("A", 1, 1) ∈ summaryEntries [("t1", Info.mk (some "A") none none none)] ∧
    1 ≤ 1 ∧
    reportBatches [("t1", Info.mk (some "A") none none none)] ≠ [] := by
  have h := claim_C10_groups_nonempty [("t1", Info.mk (some "A") none none none)]
    "A" [("t1", Info.mk (some "A") none none none)] (by decide)
  simpa using h

/-- Claim C2: `report` splits a group's stored track sequence into
consecutive chunks of size at most 6, all chunks are non-empty, every chunk
except possibly the last has size exactly 6, the chunks are numbered
1, 2, ... in order, concatenating them reproduces the stored order exactly,
and the chunk sizes sum to the track count. -/
theorem claim_C2_report_chunks (tracks : List Track) :
    ((reportBatches tracks).map (fun p => p.2)).flatten = tracks ∧
    (∀ p ∈ reportBatches tracks, p.2.length ≤ 6 ∧ p.2 ≠ []) ∧
    (∀ p ∈ (reportBatches tracks).dropLast, p.2.length = 6) ∧
    (reportBatches tracks).map (fun p => p.1) =
      List.range' 1 (reportBatches tracks).length ∧
    ((reportBatches tracks).map (fun p => p.2.length)).sum = tracks.length := by
  refine ⟨chunks_flatten tracks 1, fun p hp => chunks_size_nonempty tracks 1 p hp,
    fun p hp => chunks_nonlast_full tracks 1 p hp, chunks_numbers tracks 1, ?_⟩
  have h := congrArg List.length (chunks_flatten tracks 1)
  rw [flatten_length_sum] at h
  simpa [List.map_map, Function.comp] using h

/-- Claim C8: `report` on an unknown playlist name raises no error (the
embedding is a total function): it produces the not-found message followed by
output identical to `summarize`; the stored grouping is a pure function of
the data and is not modified. -/
theorem claim_C8_unknown_name (data : List Track) (name : String)
    (h : knownPlaylist data name = false) :
    printBatchOut data name = RLine.notFound name :: summarizeOut data := by
  simp [printBatchOut, h]

/-- Witness for C8 at a concrete store and the unknown name `"Z"`. -/
theorem claim_C8_unknown_name_witness :
    printBatchOut [("t1", Info.mk (some "A") none none none)] "Z" =
      RLine.notFound "Z" ::
        summarizeOut [("t1", Info.mk (some "A") none none none)] :=
  claim_C8_unknown_name _ _ (by decide)

/-- Witness for C1 at a concrete one-track store. -/
theorem claim_C1_summary_ceiling_witness :
    (1 : Nat) = (1 + 5) / 6 ∧ 1 ≤ 6 * 1 ∧ 6 * 1 < 1 + 6 :=
  claim_C1_summary_ceiling [("t1", Info.mk (some "A") none none none)] "A" 1 1
    (by decide)

theorem orderedInsert_key_comm (data : List Track) (x : String × List Track)
    (l : List (String × List Track))
    (hx : (groupTracks data x.1).length = x.2.length)
    (hl : ∀ p ∈ l, (groupTracks data p.1).length = p.2.length) :
    List.orderedInsert (descKey data) x.1 (l.map (fun e => e.1)) =
      (List.orderedInsert descCount x l).map (fun e => e.1) := by
  induction l with
  | nil => rfl
  | cons y ys ih =>
      have hy := hl y (List.mem_cons_self y ys)
      have hcond : descKey data x.1 y.1 ↔ descCount x y := by
        unfold descKey descCount
        rw [hx, hy]

      simp only [List.map_cons, List.orderedInsert]
      by_cases hc : descCount x y
      · rw [if_pos (hcond.mpr hc), if_pos hc]
        simp
      · rw [if_neg (fun hh => hc (hcond.mp hh)), if_neg hc]
        rw [ih (fun p hp => hl p (List.mem_cons_of_mem _ hp))]
        simp

theorem insertionSort_key_comm (data : List Track) (l : List (String × List Track))
    (hl : ∀ p ∈ l, (groupTracks data p.1).length = p.2.length) :
    List.insertionSort (descKey data) (l.map (fun e => e.1)) =
      (List.insertionSort descCount l).map (fun e => e.1) := by
  induction l with
  | nil => rfl
  | cons x xs ih =>
      simp only [List.map_cons, List.insertionSort]
      rw [ih (fun p hp => hl p (List.mem_cons_of_mem _ hp))]
      exact orderedInsert_key_comm data x _ (hl x (List.mem_cons_self x xs))
        (fun p hp =>
          hl p (List.mem_cons_of_mem _ ((List.mem_insertionSort descCount).mp hp)))

/-- Claim C9: `report_all` visits the playlist names in exactly the sequence
`summarize` prints them — the stable descending-by-count order — and that
sequence is indeed sorted by descending track count. -/
theorem claim_C9_report_all_order (data : List Track) :
    reportAllOrder data = summaryOrder data ∧
    List.Sorted (descKey data) (reportAllOrder data) := by
  constructor
  · have hl : ∀ p ∈ playlists data, (groupTracks data p.1).length = p.2.length := by
      intro p hp
      have hmem : (p.1, p.2) ∈ playlists data := by
        cases p; exact hp
      rw [groupTracks_of_mem data p.1 p.2 hmem]
    rw [reportAllOrder, summaryOrder, summaryEntries,
      insertionSort_key_comm data (playlists data) hl, List.map_map]
    rfl
  · haveI : IsTotal String (descKey data) := ⟨fun a b => Nat.le_total _ _⟩
    haveI : IsTrans String (descKey data) :=
      ⟨fun _ _ _ hab hbc => Nat.le_trans hbc hab⟩
    exact List.sorted_insertionSort (descKey data) _

/-! ## A small toolkit about `List.isPrefixOf` on character lists -/

theorem ipo_append_right (p : List Char) : ∀ (u v : List Char),
    p.isPrefixOf u = true → p.isPrefixOf (u ++ v) = true := by
  induction p with
  | nil => intro u v _; simp
  | cons a as ih =>
      intro u v h
      cases u with
      | nil => simp [List.isPrefixOf] at h
      | cons b bs =>
          simp only [List.cons_append, List.isPrefixOf, Bool.and_eq_true] at h ⊢
          exact ⟨h.1, ih bs v h.2⟩

theorem ipo_of_append_le (p : List Char) : ∀ (u v : List Char),
    p.length ≤ u.length → p.isPrefixOf (u ++ v) = true → p.isPrefixOf u = true := by
  induction p with
  | nil => intro u v _ _; simp
  | cons a as ih =>
      intro u v hlen h
      cases u with
      | nil => simp at hlen
      | cons b bs =>
          simp only [List.cons_append, List.isPrefixOf, Bool.and_eq_true] at h ⊢
          simp only [List.length_cons, Nat.succ_le_succ_iff] at hlen
          exact ⟨h.1, ih bs v hlen h.2⟩

theorem ipo_drop_append (u : List Char) : ∀ (p v : List Char),
    u.length ≤ p.length → p.isPrefixOf (u ++ v) = true →
    (p.drop u.length).isPrefixOf v = true ∧ p.take u.length = u := by
  induction u with
  | nil => intro p v _ h; exact ⟨h, rfl⟩
  | cons b bs ih =>
      intro p v hlen h
      cases p with
      | nil => simp at hlen
      | cons a as =>
          simp only [List.cons_append, List.isPrefixOf, Bool.and_eq_true] at h
          have hab : a = b := eq_of_beq h.1
          simp only [List.length_cons, Nat.succ_le_succ_iff] at hlen
          obtain ⟨h1, h2⟩ := ih as v hlen h.2
          refine ⟨h1, ?_⟩
          simp only [List.length_cons, List.take_succ_cons, h2, hab]

theorem ipo_length_le (p : List Char) : ∀ (s : List Char),
    p.isPrefixOf s = true → p.length ≤ s.length := by
  induction p with
  | nil => intro s _; simp
  | cons a as ih =>
      intro s h
      cases s with
      | nil => simp [List.isPrefixOf] at h
      | cons b bs =>
          simp only [List.isPrefixOf, Bool.and_eq_true] at h
          simpa using ih bs h.2

theorem ipo_mem (p : List Char) : ∀ (s : List Char) (x : Char),
    p.isPrefixOf s = true → x ∈ p → x ∈ s := by
  induction p with
  | nil => intro s x _ hx; cases hx
  | cons a as ih =>
      intro s x h hx
      cases s with
      | nil => simp [List.isPrefixOf] at h
      | cons b bs =>
          simp only [List.isPrefixOf, Bool.and_eq_true] at h
          rcases List.mem_cons.mp hx with hx | hx
          · subst hx
            exact (eq_of_beq h.1) ▸ List.mem_cons_self _ _
          · exact List.mem_cons_of_mem _ (ih bs x h.2 hx)

theorem ipo_self_append (l : List Char) : ∀ (r : List Char),
    l.isPrefixOf (l ++ r) = true := by
  induction l with
  | nil => intro r; simp
  | cons a as ih =>
      intro r
      simp only [List.cons_append, List.isPrefixOf, Bool.and_eq_true]
      exact ⟨beq_self_eq_true a, ih r⟩

theorem ipo_head (a b : Char) (as bs : List Char)
    (h : (a :: as).isPrefixOf (b :: bs) = true) : a = b := by
  simp only [List.isPrefixOf, Bool.and_eq_true] at h
  exact eq_of_beq h.1

theorem ipo_nil_right (p : List Char) (hp : p ≠ []) : p.isPrefixOf [] = false := by
  cases p with
  | nil => exact absurd rfl hp
  | cons a as => rfl

/-! ## Facts about the literal markers (established by computation) -/

theorem openMark_ne_nil : openMark ≠ [] := by decide

theorem openMark_length : openMark.length = 34 := by decide

theorem openMark_no_border :
    ∀ j, j < 34 → 0 < j → (openMark.drop j).isPrefixOf openMark = false := by
  decide

theorem matchAt_nil : matchAt ([] : List Char) = none := by decide

/-- An occurrence of the opening marker forces the position to lie inside the
string. -/
theorem occ_lt_length (s : List Char) (i : Nat)
    (h : openMark.isPrefixOf (s.drop i) = true) : i < s.length := by
  by_contra hge
  have hnil : s.drop i = [] := List.drop_eq_nil_of_le (Nat.le_of_not_lt hge)
  rw [hnil, ipo_nil_right openMark openMark_ne_nil] at h
  cases h

/-! ## Lemmas about the line parser -/

theorem takeWhile_no_quote (f : List Char) (l : List Char) (hq : qc ∉ f) :
    (f ++ qc :: l).takeWhile (fun x => ¬ (x = qc)) = f ∧
    (f ++ qc :: l).dropWhile (fun x => ¬ (x = qc)) = qc :: l := by
  induction f with
  | nil => simp
  | cons x xs ih =>
      have hx : ¬ (x = qc) := fun h => hq (h ▸ List.mem_cons_self x xs)
      have hxs : qc ∉ xs := fun h => hq (List.mem_cons_of_mem x h)
      obtain ⟨h1, h2⟩ := ih hxs
      refine ⟨?_, ?_⟩
      · rw [List.cons_append, List.takeWhile_cons, if_pos (by simpa using hx), h1]
      · rw [List.cons_append, List.dropWhile_cons, if_pos (by simpa using hx), h2]

theorem eatLine_nameLine (f : List Char) (rest : List Char) (hne : f ≠ [])
    (hq : qc ∉ f) : eatLine (nameLine f ++ rest) = some rest := by
  have hassoc : nameLine f ++ rest = ' ' :: ' ' :: qc :: (f ++ qc :: ',' :: '\n' :: rest) := by
    simp [nameLine]
  obtain ⟨ht, hd⟩ := takeWhile_no_quote f (',' :: '\n' :: rest) hq
  rw [hassoc]
  simp only [eatLine, if_pos rfl, ht, hd, hne, if_neg hne]
  simp

theorem eatLine_closeMark (d : List Char) : eatLine (closeMark ++ d) = none := rfl

theorem eatLine_some_decomp (s t : List Char) (h : eatLine s = some t) :
    ∃ u, s = u ++ t ∧ u ≠ [] := by
  unfold eatLine at h
  split at h
  case h_1 c rest =>
    split at h
    case isTrue hc =>
      split at h
      case isTrue => exact absurd h (by simp)
      case isFalse htk =>
        split at h
        case h_1 c2 rest3 heq =>
          split at h
          case isTrue hc2 =>
            injection h with ht
            refine ⟨' ' :: ' ' :: c :: ((rest.takeWhile (fun x => ¬ (x = qc))) ++
              [c2, ',', '\n']), ?_, by simp⟩
            have hrest : rest = (rest.takeWhile (fun x => ¬ (x = qc))) ++
                (rest.dropWhile (fun x => ¬ (x = qc))) :=
              (List.takeWhile_append_dropWhile _ _).symm
            subst ht
            rw [heq] at hrest
            simp only [List.cons_append, List.append_assoc, List.nil_append]
            rw [← hrest]
          case isFalse => exact absurd h (by simp)
        case h_2 => exact absurd h (by simp)
    case isFalse => exact absurd h (by simp)
  case h_2 => exact absurd h (by simp)

theorem eatLine_some_length (s t : List Char) (h : eatLine s = some t) :
    t.length < s.length := by
  obtain ⟨u, hu, hne⟩ := eatLine_some_decomp s t h
  subst hu
  cases u with
  | nil => exact absurd rfl hne
  | cons x xs => simp only [List.length_append, List.length_cons]; omega

theorem eatLinesGo_fuel (f1 : Nat) : ∀ (f2 : Nat) (s : List Char),
    s.length ≤ f1 → s.length ≤ f2 → eatLinesGo f1 s = eatLinesGo f2 s := by
  induction f1 with
  | zero =>
      intro f2 s h1 _
      have hs : s = [] := List.eq_nil_of_length_eq_zero (Nat.le_zero.mp h1)
      subst hs
      cases f2 <;> rfl
  | succ n ih =>
      intro f2 s h1 h2
      cases f2 with
      | zero =>
          have hs : s = [] := List.eq_nil_of_length_eq_zero (Nat.le_zero.mp h2)
          subst hs
          rfl
      | succ m =>
          simp only [eatLinesGo]
          cases he : eatLine s with
          | none => rfl
          | some t =>
              have hlt := eatLine_some_length s t he
              exact ih m t (by omega) (by omega)

theorem eatLines_of_none (s : List Char) (h : eatLine s = none) : eatLines s = s := by
  rw [eatLines]
  rcases hn : s.length with _ | n
  · rfl
  · simp only [eatLinesGo, h]

theorem eatLines_of_some (s t : List Char) (h : eatLine s = some t) :
    eatLines s = eatLines t := by
  rw [eatLines, eatLines]
  rcases hn : s.length with _ | n
  · have hs : s = [] := List.eq_nil_of_length_eq_zero hn
    subst hs
    exact absurd h (by simp [eatLine])
  · have hlt := eatLine_some_length s t h
    simp only [eatLinesGo, h]
    exact eatLinesGo_fuel n t.length t (by omega) (Nat.le_refl _)

theorem eatLines_lines (files : List (List Char)) (d : List Char)
    (hf : ∀ f ∈ files, f ≠ [] ∧ qc ∉ f) :
    eatLines ((files.map nameLine).flatten ++ (closeMark ++ d)) = closeMark ++ d := by
  induction files with
  | nil =>
      simp only [List.map_nil, List.flatten_nil, List.nil_append]
      exact eatLines_of_none _ (eatLine_closeMark d)
  | cons f fs ih =>
      obtain ⟨hne, hq⟩ := hf f (List.mem_cons_self f fs)
      have hstep : eatLine ((((f :: fs).map nameLine).flatten) ++ (closeMark ++ d)) =
          some ((fs.map nameLine).flatten ++ (closeMark ++ d)) := by
        simp only [List.map_cons, List.flatten_cons, List.append_assoc]
        exact eatLine_nameLine f _ hne hq
      rw [eatLines_of_some _ _ hstep]
      exact ih (fun g hg => hf g (List.mem_cons_of_mem f hg))

theorem eatLines_decomp_aux (n : Nat) : ∀ (s : List Char), s.length ≤ n →
    ∃ u, s = u ++ eatLines s := by
  induction n with
  | zero =>
      intro s h
      have hs : s = [] := List.eq_nil_of_length_eq_zero (Nat.le_zero.mp h)
      subst hs
      exact ⟨[], rfl⟩
  | succ m ih =>
      intro s h
      cases he : eatLine s with
      | none => exact ⟨[], by rw [eatLines_of_none s he]; rfl⟩
      | some t =>
          have hlt := eatLine_some_length s t he
          obtain ⟨u1, hu1, _⟩ := eatLine_some_decomp s t he
          obtain ⟨u2, hu2⟩ := ih t (by omega)
          refine ⟨u1 ++ u2, ?_⟩
          rw [eatLines_of_some s t he, List.append_assoc, ← hu2, hu1]

theorem eatLines_decomp (s : List Char) : ∃ u, s = u ++ eatLines s :=
  eatLines_decomp_aux s.length s (Nat.le_refl _)

/-! ## Lemmas about the whole-pattern matcher -/

theorem ipo_decomp (p : List Char) : ∀ (s : List Char),
    p.isPrefixOf s = true → s = p ++ s.drop p.length := by
  induction p with
  | nil => intro s _; rfl
  | cons a as ih =>
      intro s h
      cases s with
      | nil => simp [List.isPrefixOf] at h
      | cons b bs =>
          simp only [List.isPrefixOf, Bool.and_eq_true] at h
          have hab : a = b := eq_of_beq h.1
          subst hab
          simp only [List.length_cons, List.drop_succ_cons, List.cons_append,
            List.cons.injEq, true_and]
          exact ih bs h.2

theorem matchAt_setContent (files : List (List Char)) (d : List Char)
    (hf : ∀ f ∈ files, f ≠ [] ∧ qc ∉ f) :
    matchAt (setContent files ++ d) = some d := by
  have hsplit : setContent files ++ d =
      openMark ++ ((files.map nameLine).flatten ++ (closeMark ++ d)) := by
    simp [setContent]
  rw [matchAt]
  have hp : openMark.isPrefixOf (setContent files ++ d) = true := by
    rw [hsplit]; exact ipo_self_append _ _
  rw [if_pos hp, hsplit, List.drop_left, eatLines_lines files d hf,
    if_pos (ipo_self_append closeMark d), List.drop_left]

theorem matchAt_some_decomp (s t : List Char) (h : matchAt s = some t) :
    ∃ u, s = u ++ t ∧ u ≠ [] := by
  unfold matchAt at h
  split at h
  case isTrue hp =>
    split at h
    case isTrue hc =>
      injection h with ht
      obtain ⟨u2, hu2⟩ := eatLines_decomp (s.drop openMark.length)
      have hs : s = openMark ++ s.drop openMark.length := ipo_decomp openMark s hp
      have hr : eatLines (s.drop openMark.length) =
          closeMark ++ (eatLines (s.drop openMark.length)).drop closeMark.length :=
        ipo_decomp closeMark _ hc
      refine ⟨openMark ++ u2 ++ closeMark, ?_, by simp [openMark_ne_nil]⟩
      subst ht
      calc s = openMark ++ s.drop openMark.length := hs
        _ = openMark ++ (u2 ++ eatLines (s.drop openMark.length)) := by rw [← hu2]
        _ = openMark ++ (u2 ++ (closeMark ++
              (eatLines (s.drop openMark.length)).drop closeMark.length)) := by rw [← hr]
        _ = openMark ++ u2 ++ closeMark ++
              (eatLines (s.drop openMark.length)).drop closeMark.length := by
              simp [List.append_assoc]
    case isFalse => exact absurd h (by simp)
  case isFalse => exact absurd h (by simp)

theorem matchAt_some_length (s t : List Char) (h : matchAt s = some t) :
    t.length < s.length := by
  obtain ⟨u, hu, hne⟩ := matchAt_some_decomp s t h
  subst hu
  cases u with
  | nil => exact absurd rfl hne
  | cons x xs => simp only [List.length_append, List.length_cons]; omega

theorem matchAt_none_of_no_occ (s : List Char)
    (h : openMark.isPrefixOf s = false) : matchAt s = none := by
  unfold matchAt
  rw [h]
  rfl

/-! ## Lemmas about the substitution scan -/

theorem reSubGo_fuel (repl : List Char) (f1 : Nat) : ∀ (f2 : Nat) (s : List Char),
    s.length ≤ f1 → s.length ≤ f2 → reSubGo repl f1 s = reSubGo repl f2 s := by
  induction f1 with
  | zero =>
      intro f2 s h1 _
      have hs : s = [] := List.eq_nil_of_length_eq_zero (Nat.le_zero.mp h1)
      subst hs
      cases f2 <;> rfl
  | succ n ih =>
      intro f2 s h1 h2
      cases s with
      | nil => cases f2 <;> rfl
      | cons c cs =>
          cases f2 with
          | zero => simp at h2
          | succ m =>
              simp only [reSubGo]
              cases hm : matchAt (c :: cs) with
              | none =>
                  dsimp only
                  simp only [List.length_cons] at h1 h2
                  rw [ih m cs (by omega) (by omega)]
              | some rest =>
                  dsimp only
                  have hlt := matchAt_some_length _ _ hm
                  simp only [List.length_cons] at h1 h2 hlt
                  rw [ih m rest (by omega) (by omega)]

theorem reSubAll_nil (repl : List Char) : reSubAll repl [] = [] := rfl

theorem reSubAll_cons_match (repl : List Char) (c : Char) (cs rest : List Char)
    (h : matchAt (c :: cs) = some rest) :
    reSubAll repl (c :: cs) = repl ++ reSubAll repl rest := by
  rw [reSubAll, reSubAll]
  simp only [List.length_cons, reSubGo, h]
  have hlt := matchAt_some_length _ _ h
  simp only [List.length_cons] at hlt
  rw [reSubGo_fuel repl cs.length rest.length rest (by omega) (Nat.le_refl _)]

theorem reSubAll_cons_nomatch (repl : List Char) (c : Char) (cs : List Char)
    (h : matchAt (c :: cs) = none) :
    reSubAll repl (c :: cs) = c :: reSubAll repl cs := by
  rw [reSubAll, reSubAll]
  simp only [List.length_cons, reSubGo, h]

theorem reSubAll_id_of_noMatch (s : List Char)
    (h : ∀ i, matchAt (s.drop i) = none) (repl : List Char) :
    reSubAll repl s = s := by
  induction s with
  | nil => rfl
  | cons c cs ih =>
      rw [reSubAll_cons_nomatch repl c cs (h 0)]
      rw [ih (fun i => h (i + 1))]

theorem reSubAll_append_of_noMatchPre (repl : List Char) (a : List Char) :
    ∀ (t : List Char), (∀ i, i < a.length → matchAt ((a ++ t).drop i) = none) →
    reSubAll repl (a ++ t) = a ++ reSubAll repl t := by
  induction a with
  | nil => intro t _; rfl
  | cons x xs ih =>
      intro t h
      have h0 : matchAt (x :: (xs ++ t)) = none := h 0 (by simp)
      rw [List.cons_append, reSubAll_cons_nomatch repl x (xs ++ t) h0]
      rw [ih t (fun i hi => h (i + 1) (by simpa using Nat.succ_lt_succ hi))]
      rfl

/-- A well-formed block at the head of the string is replaced wholesale and
the scan resumes after it. -/
theorem reSubAll_block (repl : List Char) (m t : List Char)
    (h : matchAt (m ++ t) = some t) :
    reSubAll repl (m ++ t) = repl ++ reSubAll repl t := by
  cases hm : m with
  | nil =>
      subst hm
      have := matchAt_some_length t t (by simpa using h)
      omega
  | cons x xs =>
      subst hm
      exact reSubAll_cons_match repl x (xs ++ t) t (by simpa using h)

/-! ## Claim theorems for the synchronizer -/

theorem matchAt_drop_none_all (s : List Char)
    (h : ∀ i, i < s.length → matchAt (s.drop i) = none) :
    ∀ i, matchAt (s.drop i) = none := by
  intro i
  by_cases hi : i < s.length
  · exact h i hi
  · rw [List.drop_eq_nil_of_le (Nat.le_of_not_lt hi)]
    exact matchAt_nil

theorem sync_fileContent (listing : List (List Char)) (content : List Char) :
    (sync listing content).fileContent =
      reSubAll (setContent (collectFiles listing)) content := by
  rw [sync]
  split
  case isTrue h => exact h.symm
  case isFalse => rfl

/-- Claim C4: one run of `sync` writes the target at most once, and only when
the substitution result differs from the original content; in particular,
when no position of the content matches the pattern the file is left
byte-identical and the run reports no changes. -/
theorem claim_C4_conditional_write (listing : List (List Char)) (content : List Char) :
    ((sync listing content).wrote = true → (sync listing content).fileContent ≠ content) ∧
    ((sync listing content).wrote = false → (sync listing content).fileContent = content) ∧
    ((∀ i, i < content.length → matchAt (content.drop i) = none) →
      (sync listing content).fileContent = content ∧ (sync listing content).wrote = false) := by
  refine ⟨?_, ?_, ?_⟩
  · intro hw
    by_cases hc : reSubAll (setContent (collectFiles listing)) content = content
    · rw [sync, if_pos hc] at hw; cases hw
    · rw [sync, if_neg hc]; simpa using hc
  · intro hw
    by_cases hc : reSubAll (setContent (collectFiles listing)) content = content
    · rw [sync, if_pos hc]
    · rw [sync, if_neg hc] at hw; cases hw
  · intro h
    have hid := reSubAll_id_of_noMatch content (matchAt_drop_none_all content h)
      (setContent (collectFiles listing))
    rw [sync, if_pos hid]
    exact ⟨rfl, rfl⟩

/-- Witness for C4: a content with no match is left untouched. -/
theorem claim_C4_conditional_write_witness :
    (sync ["a.wav".data] "hello".data).fileContent = "hello".data ∧
    (sync ["a.wav".data] "hello".data).wrote = false :=
  (claim_C4_conditional_write ["a.wav".data] "hello".data).2.2 (by decide)

/-- Counterexample to claim C3 as stated: a target content containing two
disjoint pattern matches (shown by the two `matchAt` conjuncts) has BOTH of
them replaced by `sync` — the result differs from either single-replacement
outcome. -/
theorem claim_C3_counterexample :
    matchAt (setContent [['b']] ++ 'X' :: setContent [['c']]) =
      some ('X' :: setContent [['c']]) ∧
    matchAt (setContent [['c']]) = some [] ∧
    (sync ["a.wav".data] (setContent [['b']] ++ 'X' :: setContent [['c']])).fileContent =
      setContent [['a']] ++ 'X' :: setContent [['a']] ∧
    setContent [['a']] ++ 'X' :: setContent [['a']] ≠
      setContent [['b']] ++ 'X' :: setContent [['a']] ∧
    setContent [['a']] ++ 'X' :: setContent [['a']] ≠
      setContent [['a']] ++ 'X' :: setContent [['c']] := by
  decide

/-- Claim C3 amended: `sync` replaces EVERY non-overlapping match of the
block pattern, scanning left to right, not just one.  For a content that
decomposes as inert prefix, match, inert middle, match, inert tail, both
matches are replaced by the rendered block. -/
theorem claim_C3_amended_replaces_all (listing : List (List Char))
    (a b e M1 M2 : List Char)
    (h1 : ∀ i, i < a.length → matchAt ((a ++ (M1 ++ (b ++ (M2 ++ e)))).drop i) = none)
    (h2 : matchAt (M1 ++ (b ++ (M2 ++ e))) = some (b ++ (M2 ++ e)))
    (h3 : ∀ i, i < b.length → matchAt ((b ++ (M2 ++ e)).drop i) = none)
    (h4 : matchAt (M2 ++ e) = some e)
    (h5 : ∀ i, i < e.length → matchAt (e.drop i) = none) :
    reSubAll (setContent (collectFiles listing)) (a ++ (M1 ++ (b ++ (M2 ++ e)))) =
      a ++ (setContent (collectFiles listing) ++
        (b ++ (setContent (collectFiles listing) ++ e))) := by
  rw [reSubAll_append_of_noMatchPre _ a _ h1]
  rw [reSubAll_block _ M1 _ h2]
  rw [reSubAll_append_of_noMatchPre _ b _ h3]
  rw [reSubAll_block _ M2 _ h4]
  rw [reSubAll_id_of_noMatch e (matchAt_drop_none_all e h5) _]

/-- Witness for the amended C3 at concrete blocks. -/
theorem claim_C3_amended_replaces_all_witness :
    reSubAll (setContent (collectFiles ["a.wav".data]))
        ([] ++ (setContent [['b']] ++ (['X'] ++ (setContent [['c']] ++ [])))) =
      [] ++ (setContent (collectFiles ["a.wav".data]) ++
        (['X'] ++ (setContent (collectFiles ["a.wav".data]) ++ []))) :=
  claim_C3_amended_replaces_all ["a.wav".data] [] ['X'] []
    (setContent [['b']]) (setContent [['c']])
    (by decide) (by decide) (by decide) (by decide) (by decide)

/-- Counterexample to claim C5 as stated: there is a target content on which
`sync` is not idempotent — the second run (with an unchanged empty directory)
writes the file again and changes it. -/
theorem claim_C5_counterexample :
    (sync []
        ((sync [] (openMark ++ ' ' :: ' ' :: qc :: 'X' ::
          (setContent [['b']] ++ qc :: ',' :: '\n' :: closeMark))).fileContent)).wrote
      = true ∧
    (sync []
        ((sync [] (openMark ++ ' ' :: ' ' :: qc :: 'X' ::
          (setContent [['b']] ++ qc :: ',' :: '\n' :: closeMark))).fileContent)).fileContent
      ≠ (sync [] (openMark ++ ' ' :: ' ' :: qc :: 'X' ::
          (setContent [['b']] ++ qc :: ',' :: '\n' :: closeMark))).fileContent := by
  decide

/-! ## Idempotency of `sync` under the single-marker hypothesis -/

theorem drop_append_short (a t : List Char) (i : Nat) (hi : i < a.length) :
    (a ++ t).drop i = a.drop i ++ t := by
  rw [List.drop_append_eq_append_drop, Nat.sub_eq_zero_of_le (Nat.le_of_lt hi),
    List.drop_zero]

theorem drop_append_long (u dd : List Char) (m : Nat) :
    (u ++ dd).drop (u.length + m) = dd.drop m := by
  rw [List.drop_append_eq_append_drop, List.drop_eq_nil_of_le (by omega),
    List.nil_append, Nat.add_sub_cancel_left]

/-- Claim C5 amended: `sync` is idempotent provided every collected file stem
is non-empty and free of apostrophes, and the opening marker literal occurs
at most once in the target content.  (The unrestricted claim is refuted by
`claim_C5_counterexample`.) -/
theorem claim_C5_amended_idempotent (listing : List (List Char)) (c : List Char)
    (hgood : ∀ f ∈ collectFiles listing, f ≠ [] ∧ qc ∉ f)
    (huniq : ∀ i, i < c.length → ∀ j, j < c.length →
      openMark.isPrefixOf (c.drop i) = true → openMark.isPrefixOf (c.drop j) = true →
      i = j) :
    (sync listing ((sync listing c).fileContent)).wrote = false ∧
    (sync listing ((sync listing c).fileContent)).fileContent =
      (sync listing c).fileContent := by
  have hU : ∀ i j, openMark.isPrefixOf (c.drop i) = true →
      openMark.isPrefixOf (c.drop j) = true → i = j := fun i j hi hj =>
    huniq i (occ_lt_length c i hi) j (occ_lt_length c j hj) hi hj
  suffices hfix : reSubAll (setContent (collectFiles listing))
      (reSubAll (setContent (collectFiles listing)) c) =
      reSubAll (setContent (collectFiles listing)) c by
    rw [sync_fileContent listing c]
    constructor
    · rw [sync, if_pos hfix]
    · rw [sync, if_pos hfix]
  by_cases hocc : ∃ i, openMark.isPrefixOf (c.drop i) = true
  case neg =>
    have hnom : ∀ i, matchAt (c.drop i) = none := by
      intro i
      apply matchAt_none_of_no_occ
      cases hb : openMark.isPrefixOf (c.drop i) with
      | false => rfl
      | true => exact absurd ⟨i, hb⟩ hocc
    have hcid := reSubAll_id_of_noMatch c hnom (setContent (collectFiles listing))
    rw [hcid, hcid]
  case pos =>
    obtain ⟨p, hp⟩ := hocc
    have hplt : p < c.length := occ_lt_length c p hp
    have hc : c = c.take p ++ c.drop p := (List.take_append_drop p c).symm
    have ha : (c.take p).length = p := by rw [List.length_take]; omega
    have hcdropEq : ∀ i, i < p → c.drop i = (c.take p).drop i ++ c.drop p := by
      intro i hi
      conv_lhs => rw [hc]
      exact drop_append_short _ _ i (by omega)
    have hnoPre : ∀ i, i < (c.take p).length →
        matchAt ((c.take p ++ c.drop p).drop i) = none := by
      intro i hi
      rw [← hc]
      apply matchAt_none_of_no_occ
      cases hb : openMark.isPrefixOf (c.drop i) with
      | false => rfl
      | true =>
          have := hU i p hb hp
          omega
    have h1 : reSubAll (setContent (collectFiles listing)) c =
        c.take p ++ reSubAll (setContent (collectFiles listing)) (c.drop p) := by
      conv_lhs => rw [hc]
      exact reSubAll_append_of_noMatchPre _ (c.take p) (c.drop p) hnoPre
    cases hm : matchAt (c.drop p) with
    | none =>
        have hnom : ∀ i, matchAt ((c.drop p).drop i) = none := by
          intro i
          cases i with
          | zero => simpa using hm
          | succ n =>
              apply matchAt_none_of_no_occ
              cases hb : openMark.isPrefixOf (((c.drop p).drop (n + 1))) with
              | false => rfl
              | true =>
                  rw [List.drop_drop] at hb
                  have := hU (p + (n + 1)) p hb hp
                  omega
        have ht := reSubAll_id_of_noMatch (c.drop p) hnom
          (setContent (collectFiles listing))
        have hcid : reSubAll (setContent (collectFiles listing)) c = c := by
          rw [h1, ht, ← hc]
        rw [hcid, hcid]
    | some dd =>
        obtain ⟨u, hu, hune⟩ := matchAt_some_decomp (c.drop p) dd hm
        have hupos : 0 < u.length := by
          cases u with
          | nil => exact absurd rfl hune
          | cons x xs => simp
        have h2 : reSubAll (setContent (collectFiles listing)) (c.drop p) =
            setContent (collectFiles listing) ++
              reSubAll (setContent (collectFiles listing)) dd := by
          rw [hu]
          exact reSubAll_block _ u dd (hu ▸ hm)
        have hddnoocc : ∀ m, openMark.isPrefixOf (dd.drop m) = false := by
          intro m
          cases hb : openMark.isPrefixOf (dd.drop m) with
          | false => rfl
          | true =>
              exfalso
              have hcd : c.drop (p + (u.length + m)) = dd.drop m := by
                rw [← List.drop_drop, hu]
                exact drop_append_long u dd m
              rw [← hcd] at hb
              have := hU (p + (u.length + m)) p hb hp
              omega
        have h3 : reSubAll (setContent (collectFiles listing)) dd = dd :=
          reSubAll_id_of_noMatch dd
            (fun i => matchAt_none_of_no_occ _ (hddnoocc i)) _
        have hRc : reSubAll (setContent (collectFiles listing)) c =
            c.take p ++ (setContent (collectFiles listing) ++ dd) := by
          rw [h1, h2, h3]
        have hnoPre2 : ∀ i, i < (c.take p).length →
            matchAt ((c.take p ++ (setContent (collectFiles listing) ++ dd)).drop i)
              = none := by
          intro i hi
          apply matchAt_none_of_no_occ
          cases hb : openMark.isPrefixOf
              ((c.take p ++ (setContent (collectFiles listing) ++ dd)).drop i) with
          | false => rfl
          | true =>
              exfalso
              rw [drop_append_short _ _ i hi] at hb
              by_cases hlen : 34 ≤ ((c.take p).drop i).length
              · have hpre : openMark.isPrefixOf ((c.take p).drop i) = true :=
                  ipo_of_append_le openMark _ _ (by rw [openMark_length]; omega) hb
                have hocc_c : openMark.isPrefixOf (c.drop i) = true := by
                  rw [hcdropEq i (by omega)]
                  exact ipo_append_right _ _ _ hpre
                have := hU i p hocc_c hp
                omega
              · have hsplit : setContent (collectFiles listing) ++ dd =
                    openMark ++ (((collectFiles listing).map nameLine).flatten ++
                      (closeMark ++ dd)) := by
                  simp [setContent]
                rw [hsplit] at hb
                have hlt : ((c.take p).drop i).length < 34 := by omega
                obtain ⟨hdropPre, _⟩ := ipo_drop_append ((c.take p).drop i) openMark _
                  (by rw [openMark_length]; omega) hb
                have hlen2 : (openMark.drop ((c.take p).drop i).length).length ≤
                    openMark.length := by simp
                have hpre2 : (openMark.drop ((c.take p).drop i).length).isPrefixOf
                    openMark = true :=
                  ipo_of_append_le _ _ _ hlen2 hdropPre
                have hpos : 0 < ((c.take p).drop i).length := by
                  rw [List.length_drop]; omega
                rw [openMark_no_border ((c.take p).drop i).length hlt hpos] at hpre2
                cases hpre2
        have hmb : matchAt (setContent (collectFiles listing) ++ dd) = some dd :=
          matchAt_setContent (collectFiles listing) dd hgood
        calc reSubAll (setContent (collectFiles listing))
              (reSubAll (setContent (collectFiles listing)) c)
            = reSubAll (setContent (collectFiles listing))
                (c.take p ++ (setContent (collectFiles listing) ++ dd)) := by rw [hRc]
          _ = c.take p ++ reSubAll (setContent (collectFiles listing))
                (setContent (collectFiles listing) ++ dd) :=
              reSubAll_append_of_noMatchPre _ (c.take p) _ hnoPre2
          _ = c.take p ++ (setContent (collectFiles listing) ++
                reSubAll (setContent (collectFiles listing)) dd) := by
              rw [reSubAll_block _ (setContent (collectFiles listing)) dd hmb]
          _ = c.take p ++ (setContent (collectFiles listing) ++ dd) := by rw [h3]
          _ = reSubAll (setContent (collectFiles listing)) c := hRc.symm

/-- Witness for the amended C5: a well-formed target with a single block is a
fixed point of the sync run. -/
theorem claim_C5_amended_idempotent_witness :
    (sync ["a.wav".data]
        ((sync ["a.wav".data] (setContent [['b']])).fileContent)).wrote = false ∧
    (sync ["a.wav".data]
        ((sync ["a.wav".data] (setContent [['b']])).fileContent)).fileContent =
      (sync ["a.wav".data] (setContent [['b']])).fileContent :=
  claim_C5_amended_idempotent ["a.wav".data] (setContent [['b']])
    (by decide) (by decide)

/-! ## Lemmas for the collected file list -/

theorem leChars_total : ∀ a b : List Char, leChars a b ∨ leChars b a := by
  intro a
  induction a with
  | nil => intro b; exact Or.inl trivial
  | cons x xs ih =>
      intro b
      cases b with
      | nil => exact Or.inr trivial
      | cons y ys =>
          rcases lt_trichotomy x y with h | h | h
          · exact Or.inl (Or.inl h)
          · subst h
            rcases ih ys with h2 | h2
            · exact Or.inl (Or.inr ⟨rfl, h2⟩)
            · exact Or.inr (Or.inr ⟨rfl, h2⟩)
          · exact Or.inr (Or.inl h)

theorem leChars_trans : ∀ a b c : List Char,
    leChars a b → leChars b c → leChars a c := by
  intro a
  induction a with
  | nil => intro b c _ _; exact trivial
  | cons x xs ih =>
      intro b c hab hbc
      cases b with
      | nil => cases hab
      | cons y ys =>
          cases c with
          | nil => cases hbc
          | cons z zs =>
              rcases hab with h1 | ⟨h1, h1r⟩
              · rcases hbc with h2 | ⟨h2, _⟩
                · exact Or.inl (lt_trans h1 h2)
                · exact Or.inl (h2 ▸ h1)
              · subst h1
                rcases hbc with h2 | ⟨h2, h2r⟩
                · exact Or.inl h2
                · exact Or.inr ⟨h2, ih ys zs h1r h2r⟩

theorem matchesWav_decomp (n : List Char) (h : matchesWav n = true) :
    ∃ pre, n = pre ++ wavSuffix := by
  rw [matchesWav, List.isSuffixOf] at h
  have hd := ipo_decomp wavSuffix.reverse n.reverse h
  refine ⟨(n.reverse.drop wavSuffix.reverse.length).reverse, ?_⟩
  have hrev := congrArg List.reverse hd
  simpa using hrev

theorem stemOf_wav : stemOf wavSuffix = wavSuffix := by
  rw [stemOf, if_pos rfl]

theorem stemOf_append (pre : List Char) (hne : pre ≠ []) :
    stemOf (pre ++ wavSuffix) = pre := by
  have hlen : (pre ++ wavSuffix).length = pre.length + 4 := by
    simp [wavSuffix]
  have hnw : pre ++ wavSuffix ≠ wavSuffix := by
    intro h
    have := congrArg List.length h
    simp only [hlen] at this
    have hw : wavSuffix.length = 4 := by decide
    rw [hw] at this
    exact hne (List.eq_nil_of_length_eq_zero (by omega))
  rw [stemOf, if_neg hnw, hlen, Nat.add_sub_cancel]
  exact List.take_left pre wavSuffix

theorem stemOf_inj (n1 n2 : List Char) (h1 : matchesWav n1 = true)
    (h2 : matchesWav n2 = true) (heq : stemOf n1 = stemOf n2) (hne : n1 ≠ n2) :
    (n1 = wavSuffix ∧ n2 = wavSuffix ++ wavSuffix) ∨
    (n2 = wavSuffix ∧ n1 = wavSuffix ++ wavSuffix) := by
  obtain ⟨p1, hp1⟩ := matchesWav_decomp n1 h1
  obtain ⟨p2, hp2⟩ := matchesWav_decomp n2 h2
  subst hp1
  subst hp2
  by_cases e1 : p1 = []
  · subst e1
    by_cases e2 : p2 = []
    · subst e2; exact absurd rfl hne
    · left
      simp only [List.nil_append] at heq hne ⊢
      rw [stemOf_wav, stemOf_append p2 e2] at heq
      exact ⟨trivial, by rw [← heq]⟩
  · by_cases e2 : p2 = []
    · subst e2
      right
      simp only [List.nil_append] at heq hne ⊢
      rw [stemOf_wav, stemOf_append p1 e1] at heq
      exact ⟨trivial, by rw [heq]⟩
    · rw [stemOf_append p1 e1, stemOf_append p2 e2] at heq
      subst heq
      exact absurd rfl hne

/-- Counterexample to claim C7 as stated: a directory containing the two
distinct files `.wav` and `.wav.wav` (both match the `*.wav` glob, and
`Path(...).stem` maps both to `.wav`) makes `collect_files` return a
duplicated list. -/
theorem claim_C7_counterexample :
    [".wav".data, ".wav.wav".data].Nodup ∧
    matchesWav ".wav".data = true ∧
    matchesWav ".wav.wav".data = true ∧
    collectFiles [".wav".data, ".wav.wav".data] = [".wav".data, ".wav".data] ∧
    ¬ (collectFiles [".wav".data, ".wav.wav".data]).Nodup := by
  decide

/-- Claim C7 amended: `collect_files` returns the base names of the matching
files sorted ascending, every matching file contributing exactly one entry
(the output is a permutation of the stem of each matching file); the entries
are pairwise distinct provided the listing (whose names are distinct by
filesystem semantics) does not contain both `.wav` and `.wav.wav` — the only
pair of distinct matching names with equal stems. -/
theorem claim_C7_amended_collect (listing : List (List Char))
    (hnd : listing.Nodup)
    (hx : ¬ (wavSuffix ∈ listing ∧ (wavSuffix ++ wavSuffix) ∈ listing)) :
    List.Perm (collectFiles listing) ((listing.filter matchesWav).map stemOf) ∧
    List.Sorted leChars (collectFiles listing) ∧
    (collectFiles listing).Nodup := by
  have hperm : List.Perm (collectFiles listing) ((listing.filter matchesWav).map stemOf) :=
    List.perm_insertionSort leChars _
  refine ⟨hperm, ?_, ?_⟩
  · haveI : IsTotal (List Char) leChars := ⟨leChars_total⟩
    haveI : IsTrans (List Char) leChars := ⟨leChars_trans⟩
    exact List.sorted_insertionSort leChars _
  · have hfil : (listing.filter matchesWav).Nodup := hnd.filter _
    have hmapnd : ((listing.filter matchesWav).map stemOf).Nodup := by
      refine List.Nodup.map_on ?_ hfil
      intro x hxm y hym hxy
      by_contra hnexy
      have hxw : matchesWav x = true := (List.mem_filter.mp hxm).2
      have hyw : matchesWav y = true := (List.mem_filter.mp hym).2
      have hxl : x ∈ listing := (List.mem_filter.mp hxm).1
      have hyl : y ∈ listing := (List.mem_filter.mp hym).1
      rcases stemOf_inj x y hxw hyw hxy hnexy with ⟨hxe, hye⟩ | ⟨hye, hxe⟩
      · exact hx ⟨hxe ▸ hxl, hye ▸ hyl⟩
      · exact hx ⟨hye ▸ hyl, hxe ▸ hxl⟩
    exact hperm.nodup_iff.mpr hmapnd

/-- Witness for the amended C7 on a concrete listing. -/
theorem claim_C7_amended_collect_witness :
    List.Perm (collectFiles ["b.wav".data, "a.wav".data, "x.txt".data])
      ((["b.wav".data, "a.wav".data, "x.txt".data].filter matchesWav).map stemOf) ∧
    List.Sorted leChars (collectFiles ["b.wav".data, "a.wav".data, "x.txt".data]) ∧
    (collectFiles ["b.wav".data, "a.wav".data, "x.txt".data]).Nodup :=
  claim_C7_amended_collect ["b.wav".data, "a.wav".data, "x.txt".data]
    (by decide) (by decide)

end PixelMilk
